import Mathlib

/-!
Verification of the tree-synchronization engine of FUSE-CLI-RS
(`src/storage/s3.rs`), as a shallow embedding in Lean.

Paths and object keys are modelled as lists of characters (`Path`), and the
Rust string operations used by the sync code (`strip_prefix`,
`trim_start_matches('/')`, `trim_matches('/')`, `ends_with('/')`,
`format!` joins) are embedded as functions on `Path`.

A tree snapshot (the result of `list_files_with_metadata`, or the local
`HashMap` built by the sync functions) is an association list
`Path × (size, mtime)`; the `HashMap` in the source guarantees distinct
keys, which theorems take as a `Nodup` hypothesis where they need it.
-/

namespace FuseCli

/-- An object key / file path, as the list of its characters. -/
abbrev Path := List Char

/-- Metadata tracked per entry: (size, modification time in seconds). -/
abbrev Meta := Nat × Nat

/-- A tree snapshot: association list from path to metadata.
Models the `HashMap<String, (u64, SystemTime)>` of
`list_files_with_metadata` and the local-file maps of the sync functions. -/
abbrev Snap := List (Path × Meta)

/-- Rust `s.trim_start_matches('/')`: drop every leading separator. -/
def dropSlashes (p : Path) : Path := p.dropWhile (fun c => c = '/')

/-- Drop every trailing separator. -/
def dropSlashesEnd (p : Path) : Path := (dropSlashes p.reverse).reverse

/-- Rust `s.trim_matches('/')`: drop separators from both ends. -/
def trimSlashes (p : Path) : Path := dropSlashesEnd (dropSlashes p)

/-- Rust `s.ends_with('/')`. -/
def endsWithSlash (p : Path) : Bool :=
  match p.getLast? with
  | some c => c = '/'
  | none => false

/-- Rust `s.strip_prefix(pre)`: `some` of the remainder when `pre` is a
prefix of the string, `none` otherwise. -/
def stripPre : Path → Path → Option Path
  | [], p => some p
  | _ :: _, [] => none
  | a :: pre, b :: p => if a = b then stripPre pre p else none

/-- Relative path extraction used by `sync_directories` (s3.rs:286-288 for
the copy phase with the source prefix, s3.rs:350-352 for the delete phase
with the destination prefix) and by `sync_remote_to_local` (s3.rs:483-485):
`path.strip_prefix(pre).unwrap_or(path).trim_start_matches('/')`. -/
def relOf (pre p : Path) : Path :=
  dropSlashes ((stripPre pre p).getD p)

/-- Destination-path construction in `sync_directories` (s3.rs:291-295,
and the mirror-image source-path construction at s3.rs:355-359):
append with exactly one `'/'` unless the prefix already ends in one. -/
def joinDestDirs (dest rel : Path) : Path :=
  if endsWithSlash dest then dest ++ rel else dest ++ '/' :: rel

/-- Remote-path construction in `sync_local_to_remote` (s3.rs:402-406) and
in `sync_remote_to_local`'s delete phase (s3.rs:505-509):
the relative path itself when the prefix is empty, otherwise
`format!("{}/{}", pfx.trim_matches('/'), rel)`. -/
def joinRemote (pfx rel : Path) : Path :=
  if pfx = [] then rel else trimSlashes pfx ++ '/' :: rel

/-- `HashMap::get` on a snapshot: metadata of the first entry at `p`. -/
def lookupPath : Snap → Path → Option Meta
  | [], _ => none
  | e :: s, p => if e.1 = p then some e.2 else lookupPath s p

/-- Remove every entry at key `p` (the effect of a delete on the
modelled store). -/
def eraseObj : Snap → Path → Snap
  | [], _ => []
  | e :: s, p => if e.1 = p then eraseObj s p else e :: eraseObj s p

/-- `store.put` / overwrite-write on the modelled store: the entry at `p`
is replaced by metadata `m`. -/
def insertObj (st : Snap) (p : Path) (m : Meta) : Snap :=
  (p, m) :: eraseObj st p

/-- The comparison of `sync_directories` (s3.rs:297-305) and of the other
two sync functions: a copy is needed when the destination has no entry at
the mapped path (`None`) or either `size` or the modification time
differs (`src_size != dest_size || src_time != dest_time`). -/
def needCopy (src : Meta) (dst : Option Meta) : Bool :=
  match dst with
  | none => true
  | some dm => decide (src.1 ≠ dm.1) || decide (src.2 ≠ dm.2)

/-- Mapped destination path of a source key in `sync_directories`
(s3.rs:286-295): strip the source prefix, trim leading separators, then
join onto the destination prefix. -/
def destOf (source dest srcPath : Path) : Path :=
  joinDestDirs dest (relOf source srcPath)

/-- The copy list built by `sync_directories`' first loop (s3.rs:283-306):
for every source entry whose mapped destination entry is missing or has
different metadata, the pair `(src_path, dest_path)` is pushed. -/
def filesToCopy (source dest : Path) (srcSnap destSnap : Snap) :
    List (Path × Path) :=
  (srcSnap.filter
      (fun e => needCopy e.2 (lookupPath destSnap (destOf source dest e.1)))).map
    (fun e => (e.1, destOf source dest e.1))

/-- Mapped-back source path of a destination key in `sync_directories`'
delete phase (s3.rs:350-359): strip the destination prefix, trim leading
separators, then join onto the source prefix. -/
def srcOf (source dest destPath : Path) : Path :=
  joinDestDirs source (relOf dest destPath)

/-- The delete list of `sync_directories`' second loop (s3.rs:346-366):
when `delete` is set, every destination key whose mapped-back source path
is absent from the source snapshot; nothing otherwise. -/
def filesToDelete (source dest : Path) (srcSnap destSnap : Snap)
    (del : Bool) : List Path :=
  if del then
    (destSnap.filter
        (fun e => (lookupPath srcSnap (srcOf source dest e.1)).isNone)).map
      (fun e => e.1)
  else []

/-- One reconciliation action: a copy or a deletion. -/
inductive Action where
  | transfer (src dst : Path)
  | delete (p : Path)
deriving DecidableEq

/-- The ordered action sequence of one `sync_directories` invocation:
the copy loop (s3.rs:308-344) runs to completion before the delete loop
(s3.rs:346-366) starts, so all transfers precede all deletes. -/
def syncActions (source dest : Path) (srcSnap destSnap : Snap)
    (del : Bool) : List Action :=
  (filesToCopy source dest srcSnap destSnap).map
      (fun e => Action.transfer e.1 e.2)
    ++ (filesToDelete source dest srcSnap destSnap del).map Action.delete

/-- Sequential execution with abort-on-first-failure, as performed by the
`?`-propagation in the sync loops: the list of actions that are actually
dispatched when `ok` says which actions succeed.  An action that fails is
dispatched (it began) but nothing after it is. -/
def dispatched (ok : Action → Bool) : List Action → List Action
  | [] => []
  | a :: rest => if ok a then a :: dispatched ok rest else [a]

/-! ### Basic lemmas about the path operations -/

theorem stripPre_append (pre rest : Path) :
    stripPre pre (pre ++ rest) = some rest := by
  induction pre with
  | nil => rfl
  | cons a pre ih => simp [stripPre, ih]

theorem stripPre_eq_some (pre p r : Path) (h : stripPre pre p = some r) :
    p = pre ++ r := by
  induction pre generalizing p with
  | nil =>
    simp [stripPre] at h
    simpa using h
  | cons a pre ih =>
    cases p with
    | nil => simp [stripPre] at h
    | cons b p =>
      by_cases hab : a = b
      · subst hab
        simp [stripPre] at h
        simpa using ih p h
      · simp [stripPre, hab] at h

theorem stripPre_none_iff (pre p : Path) :
    stripPre pre p = none ↔ ∀ rest, p ≠ pre ++ rest := by
  constructor
  · intro h rest hp
    subst hp
    rw [stripPre_append] at h
    exact Option.noConfusion h
  · intro h
    cases hs : stripPre pre p with
    | none => rfl
    | some r => exact absurd (stripPre_eq_some pre p r hs) (h r)

theorem dropSlashes_cons_slash (p : Path) :
    dropSlashes ('/' :: p) = dropSlashes p := by
  simp [dropSlashes, List.dropWhile]

theorem dropSlashes_of_head (p : Path) (h : p.head? ≠ some '/') :
    dropSlashes p = p := by
  cases p with
  | nil => rfl
  | cons c p =>
    have hc : ¬ c = '/' := by
      intro hc
      exact h (by simp [hc])

    simp [dropSlashes, List.dropWhile, hc]

theorem head_dropSlashes (p : Path) : (dropSlashes p).head? ≠ some '/' := by
  induction p with
  | nil => simp [dropSlashes]
  | cons c p ih =>
    by_cases hc : c = '/'
    · subst hc
      rw [dropSlashes_cons_slash]
      exact ih
    · simp [dropSlashes, List.dropWhile, hc]

theorem needCopy_iff (m : Meta) (d : Option Meta) :
    needCopy m d = true ↔ d ≠ some m := by
  cases d with
  | none => simp [needCopy]
  | some dm =>
    simp only [needCopy, Bool.or_eq_true, decide_eq_true_eq, ne_eq,
      Option.some.injEq]
    constructor
    · rintro (h | h) hEq
      · exact h (by rw [hEq])
      · exact h (by rw [hEq])
    · intro h
      by_cases h1 : m.1 = dm.1
      · by_cases h2 : m.2 = dm.2
        · exact absurd (Prod.ext h1.symm h2.symm) h
        · exact Or.inr h2
      · exact Or.inl h1

theorem lookupPath_of_mem (s : Snap) (e : Path × Meta)
    (hnd : (s.map Prod.fst).Nodup) (he : e ∈ s) :
    lookupPath s e.1 = some e.2 := by
  induction s with
  | nil => simp at he
  | cons a s ih =>
    rw [List.map_cons, List.nodup_cons] at hnd
    rcases List.mem_cons.1 he with h | h
    · subst h
      simp [lookupPath]
    · have hne : ¬ a.1 = e.1 := by
        intro hk
        exact hnd.1 (hk ▸ List.mem_map_of_mem Prod.fst h)
      simp only [lookupPath, if_neg hne]
      exact ih hnd.2 h

theorem keys_nodup_inj (s : Snap) (e f : Path × Meta)
    (hnd : (s.map Prod.fst).Nodup) (he : e ∈ s) (hf : f ∈ s)
    (hk : e.1 = f.1) : e = f := by
  have h1 := lookupPath_of_mem s e hnd he
  have h2 := lookupPath_of_mem s f hnd hf
  rw [hk] at h1
  have h3 : some e.2 = some f.2 := h1.symm.trans h2
  exact Prod.ext hk (Option.some.inj h3)

/-- Number of occurrences of a path in a list of paths. -/
def countOcc (l : List Path) (p : Path) : Nat :=
  (l.filter (fun q => decide (q = p))).length

theorem countOcc_of_not_mem (l : List Path) (p : Path) (h : p ∉ l) :
    countOcc l p = 0 := by
  induction l with
  | nil => rfl
  | cons a l ih =>
    simp only [List.mem_cons, not_or] at h
    have hc : decide (a = p) = false := by
      simp only [decide_eq_false_iff_not]
      exact fun hh => h.1 hh.symm
    simpa [countOcc, List.filter, hc] using ih h.2

theorem countOcc_cons_self (l : List Path) (p : Path) :
    countOcc (p :: l) p = countOcc l p + 1 := by
  simp [countOcc, List.filter_cons]

theorem countOcc_cons_ne (l : List Path) (a p : Path) (h : a ≠ p) :
    countOcc (a :: l) p = countOcc l p := by
  simp [countOcc, List.filter_cons, h]

theorem countOcc_eq_one (l : List Path) (p : Path) (hnd : l.Nodup)
    (hm : p ∈ l) : countOcc l p = 1 := by
  induction l with
  | nil => simp at hm
  | cons a l ih =>
    rw [List.nodup_cons] at hnd
    rcases List.mem_cons.1 hm with h | h
    · rw [h, countOcc_cons_self, countOcc_of_not_mem l a hnd.1]
    · have hne : a ≠ p := fun hh => hnd.1 (hh ▸ h)
      rw [countOcc_cons_ne l a p hne]
      exact ih hnd.2 h

/-- C3: for every well-formed relative path `p` (non-empty and not
starting with a separator) and every destination prefix, mapping `p` into
the destination namespace and then stripping the destination prefix back
yields `p` again: `toSourceRelative (toDest p) = p`. -/
theorem pathMapper_roundTrip (dest p : Path) (h1 : p ≠ [])
    (h2 : p.head? ≠ some '/') :
    relOf dest (joinDestDirs dest p) = p := by
  unfold joinDestDirs
  by_cases hd : endsWithSlash dest
  · simp [hd, relOf, stripPre_append, dropSlashes_of_head p h2]
  · simp [hd, relOf, stripPre_append, dropSlashes_cons_slash,
      dropSlashes_of_head p h2]

/-- Witness for C3 at `dest = "d"`, `p = "a"`. -/
theorem pathMapper_roundTrip_witness :
    (['a'] : Path) ≠ [] ∧ (['a'] : Path).head? ≠ some '/'
      ∧ relOf ['d'] (joinDestDirs ['d'] ['a']) = ['a'] :=
  ⟨by decide, by decide,
    pathMapper_roundTrip ['d'] ['a'] (by decide) (by decide)⟩

/-- C9: when an absolute destination path does not start with the
expected destination prefix, mapping it back returns it unchanged except
for stripping leading separators (the defensive `unwrap_or` fallback at
s3.rs:350-352 and s3.rs:425-428); no error is signalled — the mapping is
total. -/
theorem mapBack_fallback (dest p : Path) (h : stripPre dest p = none) :
    (∀ rest, p ≠ dest ++ rest) ∧ relOf dest p = dropSlashes p :=
  ⟨(stripPre_none_iff dest p).1 h, by simp [relOf, h]⟩

/-- Witness for C9 at `dest = "d"`, `path = "x"`. -/
theorem mapBack_fallback_witness :
    stripPre ['d'] ['x'] = none
      ∧ ((∀ rest, (['x'] : Path) ≠ ['d'] ++ rest)
          ∧ relOf ['d'] ['x'] = dropSlashes ['x']) :=
  ⟨by decide, mapBack_fallback ['d'] ['x'] (by decide)⟩

/-- C1: in the diff phase of `sync_directories`, for every entry `e` of
the source snapshot (the `HashMap` guaranteeing distinct keys), a
transfer `(src_path, dest_path)` to the mapped destination path is
emitted iff the destination snapshot has no entry at that mapped path or
its `(size, modifiedTime)` pair differs from `e`'s; when both fields
match exactly, no transfer is emitted for that entry. -/
theorem diff_transfer_iff (source dest : Path) (srcSnap destSnap : Snap)
    (e : Path × Meta) (hnd : (srcSnap.map Prod.fst).Nodup)
    (he : e ∈ srcSnap) :
    (e.1, destOf source dest e.1) ∈ filesToCopy source dest srcSnap destSnap
      ↔ lookupPath destSnap (destOf source dest e.1) ≠ some e.2 := by
  constructor
  · intro hmem
    rcases List.mem_map.1 hmem with ⟨a, haf, haeq⟩
    rcases List.mem_filter.1 haf with ⟨ha, hpred⟩
    have hk : a.1 = e.1 := by
      have h2 := haeq
      rw [Prod.mk.injEq] at h2
      exact h2.1
    have hae : a = e := keys_nodup_inj srcSnap a e hnd ha he hk
    subst hae
    exact (needCopy_iff a.2 _).1 hpred
  · intro hne
    have hpred : needCopy e.2
        (lookupPath destSnap (destOf source dest e.1)) = true :=
      (needCopy_iff e.2 _).2 hne
    exact List.mem_map.2 ⟨e, List.mem_filter.2 ⟨he, hpred⟩, rfl⟩

/-- Witness for C1: source entry `"s/a" ↦ (10, 1)`, empty destination
snapshot, prefixes `"s"` and `"d"`; the transfer is emitted. -/
theorem diff_transfer_iff_witness :
    (([(['s', '/', 'a'], (10, 1))] : Snap).map Prod.fst).Nodup
    ∧ ((['s', '/', 'a'], ((10 : Nat), (1 : Nat))) ∈
        ([(['s', '/', 'a'], (10, 1))] : Snap))
    ∧ (((['s', '/', 'a'], destOf ['s'] ['d'] ['s', '/', 'a']) ∈
          filesToCopy ['s'] ['d'] [(['s', '/', 'a'], (10, 1))] []
        ↔ lookupPath [] (destOf ['s'] ['d'] ['s', '/', 'a'])
            ≠ some (10, 1))) :=
  ⟨by decide, by decide,
    diff_transfer_iff ['s'] ['d'] [(['s', '/', 'a'], (10, 1))] []
      (['s', '/', 'a'], (10, 1)) (by decide) (by decide)⟩

/-- C5: for every destination snapshot entry `e` (distinct keys), a sync
with `deleteExtraneous = false` issues no Delete at all; with
`deleteExtraneous = true`, exactly one Delete is issued for `e`'s path
when its mapped-back source path is absent from the source snapshot, and
none when it is present. -/
theorem delete_correct (source dest : Path) (srcSnap destSnap : Snap)
    (e : Path × Meta) (hnd : (destSnap.map Prod.fst).Nodup)
    (he : e ∈ destSnap) :
    filesToDelete source dest srcSnap destSnap false = []
    ∧ (lookupPath srcSnap (srcOf source dest e.1) = none →
        countOcc (filesToDelete source dest srcSnap destSnap true) e.1 = 1)
    ∧ (lookupPath srcSnap (srcOf source dest e.1) ≠ none →
        e.1 ∉ filesToDelete source dest srcSnap destSnap true) := by
  refine ⟨rfl, ?_, ?_⟩
  · intro habs
    have hpred : (lookupPath srcSnap (srcOf source dest e.1)).isNone = true := by
      simp [habs]
    have hmemf : e ∈ destSnap.filter
        (fun f => (lookupPath srcSnap (srcOf source dest f.1)).isNone) :=
      List.mem_filter.2 ⟨he, hpred⟩
    have hnd2 : ((destSnap.filter
        (fun f => (lookupPath srcSnap (srcOf source dest f.1)).isNone)).map
          (fun f => f.1)).Nodup := by
      have hsub := (List.filter_sublist (l := destSnap)
        (p := fun f => (lookupPath srcSnap (srcOf source dest f.1)).isNone)).map
          (fun f : Path × Meta => f.1)
      exact hnd.sublist hsub
    have hmem : e.1 ∈ (destSnap.filter
        (fun f => (lookupPath srcSnap (srcOf source dest f.1)).isNone)).map
          (fun f => f.1) :=
      List.mem_map.2 ⟨e, hmemf, rfl⟩
    simpa [filesToDelete] using countOcc_eq_one _ e.1 hnd2 hmem
  · intro hpres hmem
    simp only [filesToDelete, if_pos] at hmem
    rcases List.mem_map.1 hmem with ⟨a, haf, hak⟩
    rcases List.mem_filter.1 haf with ⟨ha, hpred⟩
    have hae : a = e := keys_nodup_inj destSnap a e hnd ha he hak
    subst hae
    rw [Option.isNone_iff_eq_none] at hpred
    exact hpres hpred

/-- Witness for C5: destination entry `"d/b" ↦ (5, 2)` with empty source
snapshot, prefixes `"s"` and `"d"`. -/
theorem delete_correct_witness :
    (([(['d', '/', 'b'], (5, 2))] : Snap).map Prod.fst).Nodup
    ∧ ((['d', '/', 'b'], ((5 : Nat), (2 : Nat))) ∈
        ([(['d', '/', 'b'], (5, 2))] : Snap))
    ∧ (filesToDelete ['s'] ['d'] [] [(['d', '/', 'b'], (5, 2))] false = []
        ∧ (lookupPath [] (srcOf ['s'] ['d'] ['d', '/', 'b']) = none →
            countOcc (filesToDelete ['s'] ['d'] []
              [(['d', '/', 'b'], (5, 2))] true) ['d', '/', 'b'] = 1)
        ∧ (lookupPath [] (srcOf ['s'] ['d'] ['d', '/', 'b']) ≠ none →
            ['d', '/', 'b'] ∉ filesToDelete ['s'] ['d'] []
              [(['d', '/', 'b'], (5, 2))] true)) :=
  ⟨by decide, by decide,
    delete_correct ['s'] ['d'] [] [(['d', '/', 'b'], (5, 2))]
      (['d', '/', 'b'], (5, 2)) (by decide) (by decide)⟩

theorem dispatched_phase (ok : Action → Bool) (T D : List Action)
    (hT : ∀ a ∈ T, ∃ s d, a = Action.transfer s d) (p : Path)
    (hdel : Action.delete p ∈ dispatched ok (T ++ D)) :
    ∀ a ∈ T, ok a = true ∧ a ∈ dispatched ok (T ++ D) := by
  induction T with
  | nil => simp
  | cons a T ih =>
    rw [List.cons_append] at hdel ⊢
    by_cases ha : ok a = true
    · rw [show dispatched ok (a :: (T ++ D)) =
          a :: dispatched ok (T ++ D) by simp [dispatched, ha]] at hdel ⊢
      have hdel2 : Action.delete p ∈ dispatched ok (T ++ D) := by
        rcases List.mem_cons.1 hdel with h | h
        · rcases hT a (List.mem_cons_self a T) with ⟨s, d, hsd⟩
          rw [hsd] at h
          exact absurd h.symm (Action.noConfusion)
        · exact h
      intro b hb
      rcases List.mem_cons.1 hb with hb | hb
      · rw [hb]
        exact ⟨ha, List.mem_cons_self a _⟩
      · have := ih (fun x hx => hT x (List.mem_cons_of_mem a hx)) hdel2 b hb
        exact ⟨this.1, List.mem_cons_of_mem a this.2⟩
    · rw [show dispatched ok (a :: (T ++ D)) = [a] by
          simp [dispatched, ha]] at hdel
      rcases hT a (List.mem_cons_self a T) with ⟨s, d, hsd⟩
      rw [List.mem_singleton, hsd] at hdel
      exact absurd hdel (Action.noConfusion)

/-- C2: in a sync with deletion enabled, every Transfer action is applied
before any Delete action: under the sequential abort-on-first-failure
execution of `sync_directories` (copy loop s3.rs:308-344, then delete
loop s3.rs:346-366), if any Delete is ever dispatched then every Transfer
of the action list succeeded and was dispatched before it. -/
theorem transfers_complete_before_delete (ok : Action → Bool)
    (source dest : Path) (srcSnap destSnap : Snap) (del : Bool) (p : Path)
    (hdel : Action.delete p ∈
      dispatched ok (syncActions source dest srcSnap destSnap del)) :
    ∀ sp dp, Action.transfer sp dp ∈
        syncActions source dest srcSnap destSnap del →
      ok (Action.transfer sp dp) = true ∧
        Action.transfer sp dp ∈
          dispatched ok (syncActions source dest srcSnap destSnap del) := by
  intro sp dp htr
  have hT : ∀ a ∈ (filesToCopy source dest srcSnap destSnap).map
      (fun e => Action.transfer e.1 e.2), ∃ s d, a = Action.transfer s d := by
    intro a ha
    rcases List.mem_map.1 ha with ⟨e, _, he⟩
    exact ⟨e.1, e.2, he.symm⟩
  have hmemT : Action.transfer sp dp ∈
      (filesToCopy source dest srcSnap destSnap).map
        (fun e => Action.transfer e.1 e.2) := by
    rcases List.mem_append.1 htr with h | h
    · exact h
    · rcases List.mem_map.1 h with ⟨q, _, hq⟩
      exact absurd hq (Action.noConfusion)
  exact dispatched_phase ok _ _ hT p hdel _ hmemT

/-- Witness for C2: one transfer, one extraneous destination entry,
deletion enabled, every action succeeding. -/
theorem transfers_complete_before_delete_witness :
    Action.delete ['d', '/', 'b'] ∈
      dispatched (fun _ => true)
        (syncActions ['s'] ['d'] [(['s', '/', 'a'], (10, 1))]
          [(['d', '/', 'b'], (5, 2))] true)
    ∧ ∀ sp dp, Action.transfer sp dp ∈
        syncActions ['s'] ['d'] [(['s', '/', 'a'], (10, 1))]
          [(['d', '/', 'b'], (5, 2))] true →
      (fun _ : Action => true) (Action.transfer sp dp) = true ∧
        Action.transfer sp dp ∈
          dispatched (fun _ => true)
            (syncActions ['s'] ['d'] [(['s', '/', 'a'], (10, 1))]
              [(['d', '/', 'b'], (5, 2))] true) :=
  ⟨by decide,
    transfers_complete_before_delete (fun _ => true) ['s'] ['d']
      [(['s', '/', 'a'], (10, 1))] [(['d', '/', 'b'], (5, 2))] true
      ['d', '/', 'b'] (by decide)⟩

/-! ### Listing of an object-store tree -/

/-- object_store listing filter: an object belongs to `list(Some(pfx))`
when its key extends the prefix as a path segment (an empty prefix lists
everything). -/
def isUnder (pfx k : Path) : Bool :=
  decide (pfx = []) || (stripPre (pfx ++ ['/']) k).isSome

/-- list_files_with_metadata (s3.rs:247-273): consumes the store's
listing for the prefix and inserts `meta.location.to_string()` — the full
object key — as the map key, together with `(size, last_modified)`. -/
def listFilesWithMetadata (st : Snap) (pfx : Path) : Snap :=
  st.filter (fun e => isUnder pfx e.1)

/-- Counterexample to C6: listing the store `{"p/a" ↦ (3, 7)}` under
prefix `"p"` keys the snapshot by the full key `"p/a"`, which is not the
prefix-relative path `"a"` that `relOf` extracts from it. -/
theorem listing_relative_keys_cex :
    (listFilesWithMetadata [(['p', '/', 'a'], (3, 7))] ['p']).map Prod.fst
        = [['p', '/', 'a']]
    ∧ relOf ['p'] ['p', '/', 'a'] = ['a']
    ∧ (['p', '/', 'a'] : Path) ≠ ['a'] := by
  decide

/-- C6 (amended): listing an object-store tree returns each object's full
store key unmodified — every snapshot entry is a store entry whose key
extends the prefix; normalization to a prefix-relative path happens at
point of use in the sync functions (via `relOf`), not in the listing. -/
theorem listing_full_keys (st : Snap) (pfx : Path) (e : Path × Meta)
    (hmem : e ∈ listFilesWithMetadata st pfx) :
    e ∈ st ∧ (pfx = [] ∨ ∃ rest, e.1 = pfx ++ '/' :: rest) := by
  rcases List.mem_filter.1 hmem with ⟨hst, hun⟩
  refine ⟨hst, ?_⟩
  rcases Bool.or_eq_true_iff.1 hun with h | h
  · exact Or.inl (of_decide_eq_true h)
  · rcases Option.isSome_iff_exists.1 h with ⟨r, hr⟩
    refine Or.inr ⟨r, ?_⟩
    have := stripPre_eq_some (pfx ++ ['/']) e.1 r hr
    simpa using this

/-- Witness for C6 (amended) at the concrete store of the
counterexample. -/
theorem listing_full_keys_witness :
    (((['p', '/', 'a'] : Path), ((3 : Nat), (7 : Nat))) ∈
        listFilesWithMetadata [(['p', '/', 'a'], (3, 7))] ['p'])
    ∧ ((((['p', '/', 'a'] : Path), ((3 : Nat), (7 : Nat))) ∈
          ([(['p', '/', 'a'], (3, 7))] : Snap))
        ∧ ((['p'] : Path) = []
            ∨ ∃ rest, (['p', '/', 'a'] : Path) = ['p'] ++ '/' :: rest)) :=
  ⟨by decide,
    listing_full_keys [(['p', '/', 'a'], (3, 7))] ['p']
      (['p', '/', 'a'], (3, 7)) (by decide)⟩

/-! ### Join / separator behaviour (C7) -/

/-- Counterexample to C7: with destination prefix `"a"` and empty
relative path, `sync_directories` produces `"a/"`, not the prefix `"a"`
itself. -/
theorem join_empty_rel_cex :
    joinDestDirs ['a'] [] = ['a', '/'] ∧ (['a', '/'] : Path) ≠ ['a'] := by
  decide

theorem endsWithSlash_trimSlashes (p : Path) :
    endsWithSlash (trimSlashes p) = false := by
  unfold trimSlashes dropSlashesEnd endsWithSlash
  rw [List.getLast?_reverse]
  have hne := head_dropSlashes ((dropSlashes p).reverse)
  cases hh : (dropSlashes (dropSlashes p).reverse).head? with
  | none => rfl
  | some c =>
    rw [hh] at hne
    simp only [ne_eq, Option.some.injEq] at hne
    simp [hne]

/-- C7 (amended): for a non-empty relative path `r` with no leading
separator, the destination path joins the prefix and `r` with exactly one
separator — `joinRemote` first trims the prefix of all separators (so the
junction has exactly one `'/'`), and `joinDestDirs` appends exactly one
when the prefix does not already end in one; when `r` is empty the result
is the prefix followed by a trailing separator, not the prefix itself. -/
theorem join_one_separator (pfx dst r : Path) (h1 : pfx ≠ [])
    (h3 : endsWithSlash dst = false) :
    joinRemote pfx r = trimSlashes pfx ++ '/' :: r
    ∧ endsWithSlash (trimSlashes pfx) = false
    ∧ joinDestDirs dst r = dst ++ '/' :: r
    ∧ joinRemote pfx [] = trimSlashes pfx ++ ['/']
    ∧ joinDestDirs dst [] = dst ++ ['/'] := by
  refine ⟨?_, endsWithSlash_trimSlashes pfx, ?_, ?_, ?_⟩
  · simp [joinRemote, h1]
  · simp [joinDestDirs, h3]
  · simp [joinRemote, h1]
  · simp [joinDestDirs, h3]

/-- Witness for C7 (amended) at `pfx = "p/"`, `dst = "d"`, `r = "x"`. -/
theorem join_one_separator_witness :
    (['p', '/'] : Path) ≠ [] ∧ endsWithSlash ['d'] = false
    ∧ (joinRemote ['p', '/'] ['x'] = trimSlashes ['p', '/'] ++ '/' :: ['x']
        ∧ endsWithSlash (trimSlashes ['p', '/']) = false
        ∧ joinDestDirs ['d'] ['x'] = ['d'] ++ '/' :: ['x']
        ∧ joinRemote ['p', '/'] [] = trimSlashes ['p', '/'] ++ ['/']
        ∧ joinDestDirs ['d'] [] = ['d'] ++ ['/']) :=
  ⟨by decide, by decide,
    join_one_separator ['p', '/'] ['d'] ['x'] (by decide) (by decide)⟩

/-! ### Delete semantics (C8) -/

/-- Failure of a modelled filesystem / store operation. -/
inductive FsError where
  | notFound
deriving DecidableEq

/-- delete_object (s3.rs:153-163): S3 `DeleteObject` succeeds whether or
not the key exists, so the store delete is total and never errors. -/
def deleteObject (st : Snap) (p : Path) : Except FsError Snap :=
  Except.ok (eraseObj st p)

/-- Local file delete used by `sync_remote_to_local`'s delete phase
(s3.rs:513-517): `tokio::fs::remove_file`, which fails with a NotFound
error when the path is absent; the code propagates that error with `?`
instead of ignoring it. -/
def removeFile (fs : Snap) (p : Path) : Except FsError Snap :=
  if (lookupPath fs p).isSome then Except.ok (eraseObj fs p)
  else Except.error FsError.notFound

/-- Counterexample to C8: deleting an absent path on the local side is an
error — `remove_file` on an empty tree at `"x"` fails with NotFound and
the sync surfaces it, so the local-file delete is not idempotent. -/
theorem local_delete_absent_cex :
    removeFile ([] : Snap) ['x'] = Except.error FsError.notFound := rfl

theorem lookup_eraseObj_self (st : Snap) (p : Path) :
    lookupPath (eraseObj st p) p = none := by
  induction st with
  | nil => rfl
  | cons a st ih =>
    by_cases h : a.1 = p
    · simpa [eraseObj, h] using ih
    · simpa [eraseObj, lookupPath, h] using ih

theorem eraseObj_of_lookup_none (st : Snap) (p : Path)
    (h : lookupPath st p = none) : eraseObj st p = st := by
  induction st with
  | nil => rfl
  | cons a st ih =>
    by_cases ha : a.1 = p
    · simp [lookupPath, ha] at h
    · simp only [lookupPath, if_neg ha] at h
      simp [eraseObj, ha, ih h]

/-- C8 (amended): the object-store delete succeeds on any path — in
particular on an absent one, and is idempotent (deleting again after the
path is gone still succeeds and changes nothing) — while the local-file
delete used by `sync_remote_to_local` fails with NotFound on an absent
path. -/
theorem delete_semantics (st fs : Snap) (p : Path)
    (habs : lookupPath fs p = none) :
    deleteObject st p = Except.ok (eraseObj st p)
    ∧ lookupPath (eraseObj st p) p = none
    ∧ deleteObject (eraseObj st p) p = Except.ok (eraseObj st p)
    ∧ removeFile fs p = Except.error FsError.notFound := by
  refine ⟨rfl, lookup_eraseObj_self st p, ?_, ?_⟩
  · unfold deleteObject
    rw [eraseObj_of_lookup_none _ _ (lookup_eraseObj_self st p)]
  · unfold removeFile
    rw [habs]
    rfl

/-- Witness for C8 (amended) at a one-entry store and an empty local
tree. -/
theorem delete_semantics_witness :
    lookupPath ([] : Snap) ['x'] = none
    ∧ (deleteObject [(['x'], (1, 1))] ['x']
          = Except.ok (eraseObj [(['x'], (1, 1))] ['x'])
        ∧ lookupPath (eraseObj [(['x'], (1, 1))] ['x']) ['x'] = none
        ∧ deleteObject (eraseObj [(['x'], (1, 1))] ['x']) ['x']
            = Except.ok (eraseObj [(['x'], (1, 1))] ['x'])
        ∧ removeFile ([] : Snap) ['x'] = Except.error FsError.notFound) :=
  ⟨by decide, delete_semantics [(['x'], (1, 1))] [] ['x'] (by decide)⟩

/-! ### Executing a whole sync_directories run on the modelled store (C4) -/

/-- The copy loop of sync_directories (s3.rs:308-344) on the modelled
store: each copy reads the source object's bytes and `store.put`s them at
the destination key.  The destination object's size becomes the copied
byte count (the source's listed size) and its `last_modified` becomes the
time of the write (`now`): S3 stamps uploads with its own clock, and the
`put(key, bytes)` interface carries no source modification time. -/
def execCopies (srcSnap : Snap) (now : Nat) :
    List (Path × Path) → Snap → Snap
  | [], st => st
  | e :: rest, st =>
      execCopies srcSnap now rest
        (insertObj st e.2 (((lookupPath srcSnap e.1).getD (0, 0)).1, now))

/-- The delete loop of sync_directories (s3.rs:346-366) on the modelled
store. -/
def deleteObjs : List Path → Snap → Snap
  | [], st => st
  | p :: rest, st => deleteObjs rest (eraseObj st p)

/-- One whole sync_directories invocation (s3.rs:275-370) over the
modelled store at wall-clock time `now`: list both prefixes, run the copy
loop, then the delete loop. -/
def runSyncDirs (st : Snap) (source dest : Path) (del : Bool)
    (now : Nat) : Snap :=
  let srcSnap := listFilesWithMetadata st source
  let destSnap := listFilesWithMetadata st dest
  deleteObjs (filesToDelete source dest srcSnap destSnap del)
    (execCopies srcSnap now (filesToCopy source dest srcSnap destSnap) st)

/-- Counterexample to C4: store `{"s/a" ↦ (10, 1)}`, sync `"s" → "d"`
with `delete = false` executed at time 5.  The run copies `"s/a"` to
`"d/a"`, whose `last_modified` becomes 5 — not the source's 1 — so the
second run's diff transfers it again: the second run emits one transfer,
not zero. -/
theorem sync_not_idempotent_cex :
    filesToCopy ['s'] ['d']
        (listFilesWithMetadata
          (runSyncDirs [(['s', '/', 'a'], (10, 1))] ['s'] ['d'] false 5) ['s'])
        (listFilesWithMetadata
          (runSyncDirs [(['s', '/', 'a'], (10, 1))] ['s'] ['d'] false 5) ['d'])
      = [(['s', '/', 'a'], ['d', '/', 'a'])]
    ∧ filesToCopy ['s'] ['d']
        (listFilesWithMetadata
          (runSyncDirs [(['s', '/', 'a'], (10, 1))] ['s'] ['d'] false 5) ['s'])
        (listFilesWithMetadata
          (runSyncDirs [(['s', '/', 'a'], (10, 1))] ['s'] ['d'] false 5) ['d'])
      ≠ [] := by
  decide

/-- Hypothetical transfer executor that records the source entry's
metadata (size and modifiedTime) on the destination — what idempotence
requires of the store. -/
def execCopiesPreserving (srcSnap : Snap) :
    List (Path × Path) → Snap → Snap
  | [], st => st
  | e :: rest, st =>
      execCopiesPreserving srcSnap rest
        (insertObj st e.2 ((lookupPath srcSnap e.1).getD (0, 0)))

theorem lookup_eraseObj_ne (st : Snap) (p q : Path) (h : q ≠ p) :
    lookupPath (eraseObj st p) q = lookupPath st q := by
  induction st with
  | nil => rfl
  | cons a st ih =>
    by_cases ha : a.1 = p
    · have haq : ¬ a.1 = q := fun hq => h (hq.symm.trans ha)
      simp only [eraseObj, if_pos ha, lookupPath, if_neg haq]
      exact ih
    · by_cases haq : a.1 = q
      · simp only [eraseObj, if_neg ha, lookupPath, if_pos haq]
      · simp only [eraseObj, if_neg ha, lookupPath, if_neg haq]
        exact ih

theorem lookup_insertObj (st : Snap) (p q : Path) (m : Meta) :
    lookupPath (insertObj st p m) q
      = if q = p then some m else lookupPath st q := by
  by_cases h : q = p
  · simp [insertObj, lookupPath, h]
  · simp only [insertObj, lookupPath, if_neg h,
      if_neg (fun hp : p = q => h hp.symm)]
    exact lookup_eraseObj_ne st p q h

theorem lookup_execCopiesPreserving_notin (srcSnap : Snap)
    (T : List (Path × Path)) (st : Snap) (q : Path)
    (h : q ∉ T.map Prod.snd) :
    lookupPath (execCopiesPreserving srcSnap T st) q = lookupPath st q := by
  induction T generalizing st with
  | nil => rfl
  | cons e rest ih =>
    simp only [List.map_cons, List.mem_cons, not_or] at h
    rw [execCopiesPreserving, ih _ h.2, lookup_insertObj, if_neg h.1]

theorem lookup_execCopiesPreserving_mem (srcSnap : Snap)
    (T : List (Path × Path)) (st : Snap) (sp q : Path)
    (hnd : (T.map Prod.snd).Nodup) (hmem : (sp, q) ∈ T) :
    lookupPath (execCopiesPreserving srcSnap T st) q
      = some ((lookupPath srcSnap sp).getD (0, 0)) := by
  induction T generalizing st with
  | nil => simp at hmem
  | cons e rest ih =>
    rw [List.map_cons, List.nodup_cons] at hnd
    rcases List.mem_cons.1 hmem with h | h
    · have hq : q = e.2 := by rw [← h]
      have hsp : e.1 = sp := by rw [← h]
      rw [execCopiesPreserving,
        lookup_execCopiesPreserving_notin srcSnap rest _ q (hq ▸ hnd.1),
        lookup_insertObj, if_pos hq, hsp]
    · rw [execCopiesPreserving]
      exact ih _ hnd.2 h

theorem needCopy_false_iff (m : Meta) (d : Option Meta) :
    needCopy m d = false ↔ d = some m := by
  constructor
  · intro hf
    by_contra hne
    have ht := (needCopy_iff m d).2 hne
    rw [hf] at ht
    exact Bool.noConfusion ht
  · intro heq
    cases hb : needCopy m d with
    | false => rfl
    | true => exact absurd ((needCopy_iff m d).1 hb) (by simp [heq])

/-- C4 (amended): running the diff a second time yields zero transfers
provided the transfer executor records the source entry's metadata on the
destination (and distinct source entries map to distinct destination
paths); with the actual store semantics — `put` stamps the destination's
`last_modified` with the write time — the second run re-transfers every
copied entry, as the counterexample shows. -/
theorem sync_idempotent_when_mtime_preserved (source dest : Path)
    (srcSnap destSnap : Snap)
    (hnd : (srcSnap.map Prod.fst).Nodup)
    (hinj : (srcSnap.map (fun e => destOf source dest e.1)).Nodup) :
    filesToCopy source dest srcSnap
      (execCopiesPreserving srcSnap
        (filesToCopy source dest srcSnap destSnap) destSnap) = [] := by
  refine List.map_eq_nil_iff.mpr (List.filter_eq_nil_iff.mpr ?_)
  intro e he
  have hlook : lookupPath
      (execCopiesPreserving srcSnap
        (filesToCopy source dest srcSnap destSnap) destSnap)
      (destOf source dest e.1) = some e.2 := by
    by_cases hc : needCopy e.2
        (lookupPath destSnap (destOf source dest e.1)) = true
    · have hmemT : (e.1, destOf source dest e.1) ∈
          filesToCopy source dest srcSnap destSnap :=
        List.mem_map.2 ⟨e, List.mem_filter.2 ⟨he, hc⟩, rfl⟩
      have hndT : ((filesToCopy source dest srcSnap destSnap).map
          Prod.snd).Nodup := by
        have hrw : (filesToCopy source dest srcSnap destSnap).map Prod.snd
            = (srcSnap.filter (fun f => needCopy f.2
                (lookupPath destSnap (destOf source dest f.1)))).map
                  (fun f => destOf source dest f.1) := by
          simp [filesToCopy, List.map_map]
        rw [hrw]
        exact hinj.sublist
          ((List.filter_sublist srcSnap).map (fun f => destOf source dest f.1))
      have hm := lookup_execCopiesPreserving_mem srcSnap
        (filesToCopy source dest srcSnap destSnap) destSnap e.1
        (destOf source dest e.1) hndT hmemT
      rw [lookupPath_of_mem srcSnap e hnd he] at hm
      simpa using hm
    · have hnotin : destOf source dest e.1 ∉
          (filesToCopy source dest srcSnap destSnap).map Prod.snd := by
        intro hin
        rcases List.mem_map.1 hin with ⟨f, hfT, hf2⟩
        rcases List.mem_map.1 hfT with ⟨g, hgF, hg⟩
        rcases List.mem_filter.1 hgF with ⟨hg_mem, hg_pred⟩
        have hdest : destOf source dest g.1 = destOf source dest e.1 := by
          rw [← hf2, ← hg]
        have hge : g = e :=
          List.inj_on_of_nodup_map hinj hg_mem he hdest
        rw [hge] at hg_pred
        rw [hg_pred] at hc
        exact hc rfl
      rw [lookup_execCopiesPreserving_notin srcSnap _ destSnap _ hnotin]
      exact (needCopy_false_iff e.2 _).1 (Bool.eq_false_iff.2 hc)
  simp [needCopy_false_iff, hlook]

/-- Witness for C4 (amended): one source entry, empty destination. -/
theorem sync_idempotent_when_mtime_preserved_witness :
    (([(['s', '/', 'a'], (10, 1))] : Snap).map Prod.fst).Nodup
    ∧ (([(['s', '/', 'a'], (10, 1))] : Snap).map
        (fun e => destOf ['s'] ['d'] e.1)).Nodup
    ∧ filesToCopy ['s'] ['d'] [(['s', '/', 'a'], (10, 1))]
        (execCopiesPreserving [(['s', '/', 'a'], (10, 1))]
          (filesToCopy ['s'] ['d'] [(['s', '/', 'a'], (10, 1))] []) [])
      = [] :=
  ⟨by decide, by decide,
    sync_idempotent_when_mtime_preserved ['s'] ['d']
      [(['s', '/', 'a'], (10, 1))] [] (by decide) (by decide)⟩

/-! ### sync_remote_to_local and the destination directory (C10) -/

/-- Local filesystem model: files with metadata, plus the directories
that exist. -/
structure LocalFs where
  files : Snap
  dirs : List Path
deriving DecidableEq

/-- tokio::fs::create_dir_all (s3.rs:448-452): ensures the directory
exists; missing parents are created too (the model tracks the requested
directory itself). -/
def createDirAll (fs : LocalFs) (d : Path) : LocalFs :=
  { fs with dirs := d :: fs.dirs }

/-- Parent directory of a local path: everything before the last
separator. -/
def parentOf (p : Path) : Path :=
  (p.reverse.dropWhile (fun c => decide (c ≠ '/'))).reverse

/-- `Path::join` of the local destination directory and a relative
path. -/
def joinLocal (dir rel : Path) : Path := dir ++ '/' :: rel

/-- download_file (s3.rs:101-127): create the parent directory, then
write the object's bytes; the written file's size is the byte count and
its mtime is the time of the write (`now`) — the filesystem stamps writes
with its own clock. -/
def downloadFile (fs : LocalFs) (localPath : Path) (size now : Nat) :
    LocalFs :=
  { files := insertObj fs.files localPath (size, now),
    dirs := parentOf localPath :: fs.dirs }

/-- tokio::fs::remove_file on the local model (s3.rs:513-517): errors
with NotFound when the path is absent, else removes the file
(directories are untouched). -/
def removeLocal (fs : LocalFs) (p : Path) : Except FsError LocalFs :=
  if (lookupPath fs.files p).isSome then
    Except.ok { fs with files := eraseObj fs.files p }
  else Except.error FsError.notFound

/-- Recursive local listing keyed by relative path
(list_files_recursively, s3.rs:165-202, plus the map-building loop at
s3.rs:461-479): every file under `dir`, keyed by its path relative to
`dir`. -/
def listLocalRel (fs : LocalFs) (dir : Path) : Snap :=
  fs.files.filterMap (fun e =>
    match stripPre (dir ++ ['/']) e.1 with
    | some r => some (r, e.2)
    | none => none)

/-- The copy loop of sync_remote_to_local (s3.rs:482-500): for each
remote entry, compute its relative path and local target; download when
the local map has no entry at that relative path or metadata differs. -/
def copyLoopLocal (localMap : Snap) (pfx localDir : Path) (now : Nat) :
    List (Path × Meta) → LocalFs → LocalFs
  | [], fs => fs
  | e :: rest, fs =>
    copyLoopLocal localMap pfx localDir now rest
      (if needCopy e.2 (lookupPath localMap (relOf pfx e.1)) then
        downloadFile fs (joinLocal localDir (relOf pfx e.1)) e.2.1 now
      else fs)

/-- The delete loop of sync_remote_to_local (s3.rs:503-519): for each
local entry whose remote counterpart is absent, remove the local file,
propagating a failure (`?`) and aborting the rest. -/
def deleteLoopLocal (remote : Snap) (pfx localDir : Path) :
    List (Path × Meta) → LocalFs → Except FsError LocalFs
  | [], fs => Except.ok fs
  | e :: rest, fs =>
    if (lookupPath remote (joinRemote pfx e.1)).isNone then
      match removeLocal fs (joinLocal localDir e.1) with
      | Except.ok fs2 => deleteLoopLocal remote pfx localDir rest fs2
      | Except.error err => Except.error err
    else deleteLoopLocal remote pfx localDir rest fs

/-- One sync_remote_to_local invocation (s3.rs:441-524) on the models:
list the remote prefix, create the local destination directory, list the
local tree, run the copy loop, then (if requested) the delete loop. -/
def syncRemoteToLocal (store : Snap) (pfx localDir : Path) (del : Bool)
    (fs : LocalFs) (now : Nat) : Except FsError LocalFs :=
  let remote := listFilesWithMetadata store pfx
  let fs1 := createDirAll fs localDir
  let localMap := listLocalRel fs1 localDir
  let fs2 := copyLoopLocal localMap pfx localDir now remote fs1
  if del then deleteLoopLocal remote pfx localDir localMap fs2
  else Except.ok fs2

theorem copyLoopLocal_dirs_mono (localMap : Snap) (pfx localDir : Path)
    (now : Nat) (l : List (Path × Meta)) (fs : LocalFs) (d : Path)
    (hd : d ∈ fs.dirs) :
    d ∈ (copyLoopLocal localMap pfx localDir now l fs).dirs := by
  induction l generalizing fs with
  | nil => exact hd
  | cons e rest ih =>
    rw [copyLoopLocal]
    apply ih
    by_cases hc : needCopy e.2 (lookupPath localMap (relOf pfx e.1)) = true
    · simp only [if_pos hc, downloadFile]
      exact List.mem_cons_of_mem _ hd
    · simp only [if_neg hc]
      exact hd

theorem deleteLoopLocal_dirs_preserved (remote : Snap)
    (pfx localDir : Path) (l : List (Path × Meta)) (fs out : LocalFs)
    (h : deleteLoopLocal remote pfx localDir l fs = Except.ok out)
    (d : Path) (hd : d ∈ fs.dirs) : d ∈ out.dirs := by
  induction l generalizing fs with
  | nil =>
    rw [deleteLoopLocal] at h
    cases h
    exact hd
  | cons e rest ih =>
    rw [deleteLoopLocal] at h
    by_cases hc : (lookupPath remote (joinRemote pfx e.1)).isNone = true
    · rw [if_pos hc] at h
      cases hrm : removeLocal fs (joinLocal localDir e.1) with
      | ok fs2 =>
        rw [hrm] at h
        have hdirs : fs2.dirs = fs.dirs := by
          unfold removeLocal at hrm
          by_cases hex : (lookupPath fs.files (joinLocal localDir e.1)).isSome = true
          · rw [if_pos hex] at hrm
            cases hrm
            rfl
          · rw [if_neg hex] at hrm
            exact Except.noConfusion hrm
        exact ih fs2 h (hdirs ▸ hd)
      | error err =>
        rw [hrm] at h
        exact Except.noConfusion h
    · rw [if_neg hc] at h
      exact ih fs h hd

/-- C10: every sync_remote_to_local invocation creates the local
destination directory before comparing snapshots, and nothing later
removes a directory, so after any successful invocation — including one
where the remote prefix lists no objects — the local destination
directory exists. -/
theorem syncRemoteToLocal_creates_dir (store : Snap)
    (pfx localDir : Path) (del : Bool) (fs : LocalFs) (now : Nat)
    (out : LocalFs)
    (h : syncRemoteToLocal store pfx localDir del fs now = Except.ok out) :
    localDir ∈ out.dirs := by
  unfold syncRemoteToLocal at h
  have hd1 : localDir ∈ (createDirAll fs localDir).dirs :=
    List.mem_cons_self _ _
  have hd2 : localDir ∈ (copyLoopLocal
      (listLocalRel (createDirAll fs localDir) localDir) pfx localDir now
      (listFilesWithMetadata store pfx) (createDirAll fs localDir)).dirs :=
    copyLoopLocal_dirs_mono _ _ _ _ _ _ _ hd1
  by_cases hdel : del = true
  · rw [if_pos hdel] at h
    exact deleteLoopLocal_dirs_preserved _ _ _ _ _ _ h _ hd2
  · rw [if_neg hdel] at h
    cases h
    exact hd2

/-- Witness for C10: empty store and empty local tree — the run succeeds
having transferred and deleted nothing, and the destination directory
exists afterwards. -/
theorem syncRemoteToLocal_creates_dir_witness :
    syncRemoteToLocal [] ['p'] ['d'] true ⟨[], []⟩ 0
        = Except.ok ⟨[], [['d']]⟩
    ∧ (['d'] : Path) ∈ (⟨[], [['d']]⟩ : LocalFs).dirs :=
  ⟨rfl,
    syncRemoteToLocal_creates_dir [] ['p'] ['d'] true ⟨[], []⟩ 0
      ⟨[], [['d']]⟩ rfl⟩

end FuseCli
